import Mathlib

/-!
# splitsh/lite command-line harness (`main.go`)

A shallow embedding of `main.go`: the `--prefix` flag value type
`prefixesFlag` with its `Set` method, the package-level flag variables
registered by `init`, and `main`, together with the properties of the
prefix list and of the control flow of `main`.

Go strings are byte sequences, so they are embedded as `List UInt8`.
Effects of `main` (writes to standard output and standard error, the call
of `splitter.Split`, starting and stopping the progress ticker, `os.Exit`)
are embedded as a list of events in program order.
-/

namespace Lite

/-! ## Strings -/

/-- A Go `string`: an immutable sequence of bytes. -/
abbrev GoString := List UInt8

/-- The bytes of a string literal of the source (Go source files are UTF-8). -/
def bytes (s : String) : GoString := s.data.flatMap String.utf8EncodeChar

/-- The byte `':'`, the separator `Set` passes to `strings.Split`. -/
def colon : UInt8 := 58

/-- The byte `'\n'`, appended by `fmt.Println`. -/
def newline : UInt8 := 10

namespace strings

/-- Go `strings.Count(s, sep)` for a one-byte separator: the number of
occurrences of `sep` in `s`. -/
def Count : GoString → UInt8 → Nat
  | [], _ => 0
  | b :: s, sep => (if b = sep then 1 else 0) + Count s sep

/-- Go `strings.Index(s, sep)` for a one-byte separator: the index of the
first occurrence of `sep` in `s`; Go's `-1` is `none`. -/
def Index : GoString → UInt8 → Option Nat
  | [], _ => none
  | b :: s, sep => if b = sep then some 0 else (Index s sep).map (· + 1)

/-- The loop of Go `strings.genSplit` (with `sepSave = 0` and a one-byte
separator), `k` being the number of iterations still allowed (`n - i`):
```go
for i < n {
    m := Index(s, sep)
    if m < 0 { break }
    a[i] = s[:m+sepSave]
    s = s[m+len(sep):]
    i++
}
a[i] = s
return a[:i+1]
```
-/
def genSplit : Nat → GoString → UInt8 → List GoString
  | 0, s, _ => [s]
  | k + 1, s, sep =>
    match Index s sep with
    | none => [s]
    | some m => s.take m :: genSplit k (s.drop (m + 1)) sep

/-- Go `strings.Split(s, sep)` for a one-byte separator, that is
`genSplit(s, sep, 0, -1)`: `n = Count(s, sep) + 1`, clamped to
`len(s) + 1`, then `n--` and the loop above. -/
def Split (s : GoString) (sep : UInt8) : List GoString :=
  genSplit (min (Count s sep + 1) (s.length + 1) - 1) s sep

end strings

/-! ## The prefix list -/

/-- Modelled from the spec: `splitter.Prefix`, whose declaration is in the
imported `splitter` package; "a pair (From: source path, To: target path)",
the two fields `main.go` reads and writes. -/
structure Prefix where
  From : GoString
  To : GoString
deriving DecidableEq, Repr

/-- `type prefixesFlag []*splitter.Prefix`. Every entry is a pointer to a
struct freshly allocated by `Set` and never written again, so the slice is
embedded as the list of the structs pointed to. -/
abbrev prefixesFlag := List Prefix

namespace prefixesFlag

/-- The message of the error `Set` returns:
`fmt.Errorf("Cannot have two prefix split under the same directory: %s -> %s vs %s -> %s", prefix.From, prefix.To, from, to)`. -/
def clashError (pfx : Prefix) (from_ to_ : GoString) : GoString :=
  bytes "Cannot have two prefix split under the same directory: " ++ pfx.From ++
    bytes " -> " ++ pfx.To ++ bytes " vs " ++ from_ ++ bytes " -> " ++ to_

/-- The uniqueness loop of `Set` (lines 28-33): the error returned at the
first entry whose `To` equals `to`, or `none` when the range runs to its
end. -/
def checkUnique : prefixesFlag → GoString → GoString → Option GoString
  | [], _, _ => none
  | pfx :: rest, from_, to_ =>
    if pfx.To = to_ then some (clashError pfx from_ to_)
    else checkUnique rest from_ to_

/-- Lines 20-25 of `Set`: the pair `(from, to)` parsed from `value`.
`parts[0]` and `parts[1]` are read with a default that is never used:
`Split` returns at least one part and `parts[1]` is guarded by
`len(parts) > 1`. -/
def parseValue (value : GoString) : GoString × GoString :=
  let parts := strings.Split value colon
  let from_ := parts.getD 0 []
  let to_ := if parts.length > 1 then parts.getD 1 [] else []
  (from_, to_)

/-- The method `func (p *prefixesFlag) Set(value string) error`. The result
is the list `*p` after the call and the returned error (`none` is `nil`). -/
def Set (p : prefixesFlag) (value : GoString) : prefixesFlag × Option GoString :=
  let (from_, to_) := parseValue value
  match checkUnique p from_ to_ with
  | some err => (p, some err)
  | none => (p ++ [{ From := from_, To := to_ }], none)

end prefixesFlag

/-! ## The flag variables and the collaborators of `main` -/

/-- Modelled from the spec: `splitter.Config`, whose declaration is in the
imported `splitter` package; the fields are those of the composite literal
of `main` (lines 70-79). -/
structure Config where
  Path : GoString
  Origin : GoString
  Prefixes : List Prefix
  Target : GoString
  Commit : GoString
  Debug : Bool
  Scratch : Bool
  GitVersion : GoString
deriving DecidableEq, Repr

/-- Modelled from the spec: the commit identifier `result.Head()` points to,
seen through its `String()` method, the only use `main` makes of it. -/
structure Oid where
  String : GoString
deriving DecidableEq, Repr

/-- Modelled from the spec: `splitter.Result` as `main` reads it once
`Split` has returned: the counters `Created()` and `Traversed()`, the
rendering of `Duration(time.Millisecond)` under `%s`, and `Head()`, "an
optional final head commit identifier" (`none` is the `nil` pointer). -/
structure Result where
  Created : Nat
  Traversed : Nat
  Duration : GoString
  Head : Option Oid
deriving DecidableEq, Repr

/-- The package-level variables of `main.go` (lines 39-41). -/
structure Globals where
  prefixes : prefixesFlag
  origin : GoString
  target : GoString
  commit : GoString
  path : GoString
  gitVersion : GoString
  scratch : Bool
  debug : Bool
  quiet : Bool
  legacy : Bool
  progress : Bool
deriving DecidableEq, Repr

/-- The function `init` (lines 43-55): every flag variable holds the
default its registration gives it; `prefixes` is the zero value, the empty
slice. -/
def init : Globals :=
  { prefixes := []
    origin := bytes "HEAD"
    target := bytes ""
    commit := bytes ""
    path := bytes "."
    scratch := false
    debug := false
    quiet := false
    legacy := false
    gitVersion := bytes "latest"
    progress := false }

/-- One occurrence of a registered flag on the command line with the value
it carries, as the `flag` package hands it to the flag's variable. -/
inductive FlagArg where
  | prefixValue (value : GoString)
  | origin (value : GoString)
  | target (value : GoString)
  | commit (value : GoString)
  | path (value : GoString)
  | scratch (value : Bool)
  | debug (value : Bool)
  | quiet (value : Bool)
  | legacy (value : Bool)
  | git (value : GoString)
  | progress (value : Bool)
deriving DecidableEq, Repr

/-- What the `flag` package does with one flag occurrence: `--prefix` calls
`prefixes.Set(value)` and fails with its error, every other flag stores its
value in its variable. -/
def applyFlag (g : Globals) : FlagArg → Except GoString Globals
  | .prefixValue value =>
    match prefixesFlag.Set g.prefixes value with
    | (p, none) => .ok { g with prefixes := p }
    | (_, some err) => .error err
  | .origin value => .ok { g with origin := value }
  | .target value => .ok { g with target := value }
  | .commit value => .ok { g with commit := value }
  | .path value => .ok { g with path := value }
  | .scratch value => .ok { g with scratch := value }
  | .debug value => .ok { g with debug := value }
  | .quiet value => .ok { g with quiet := value }
  | .legacy value => .ok { g with legacy := value }
  | .git value => .ok { g with gitVersion := value }
  | .progress value => .ok { g with progress := value }

/-- The call `flag.Parse()` on the flag occurrences of the command line, in
order; it stops at the first occurrence whose `Set` fails. -/
def Parse : List FlagArg → Globals → Except GoString Globals
  | [], g => .ok g
  | a :: rest, g =>
    match applyFlag g a with
    | .ok g1 => Parse rest g1
    | .error err => .error err

/-- An observable step of a run of `main`. -/
inductive Event where
  /-- Bytes written to standard output. -/
  | stdout (s : GoString)
  /-- Bytes written to standard error by `main` itself. -/
  | stderr (s : GoString)
  /-- The `flag` package reports the error of a failed `Set` (and the usage)
  on standard error. -/
  | flagError (err : GoString)
  /-- The progress reporter is started: `time.NewTicker` and the goroutine
  printing at every tick (lines 85-90). -/
  | tickerStart
  /-- The call `splitter.Split(config, result)`. -/
  | split (config : Config)
  /-- The call `ticker.Stop()`. -/
  | tickerStop
  /-- The call `os.Exit(code)`; nothing follows it. -/
  | exit (code : Nat)
deriving DecidableEq, Repr

/-- The text `fmt.Println(s)` writes: the operand and a newline. -/
def Println (s : GoString) : GoString := s ++ [newline]

/-- The verb `%d` of `fmt` on an unsigned counter: its decimal digits. -/
def formatDecimal (n : Nat) : GoString := bytes (Nat.repr n)

/-- The summary line of line 104:
`"%d commits created, %d commits traversed, in %s\n"`. -/
def summaryLine (r : Result) : GoString :=
  formatDecimal r.Created ++ bytes " commits created, " ++
    formatDecimal r.Traversed ++ bytes " commits traversed, in " ++
    r.Duration ++ [newline]

/-- The message of line 61. -/
def noPrefixMessage : GoString :=
  bytes "You must provide the directory to split via the --prefix flag"

/-- The message of line 66 (written without a newline). -/
def legacyWarning : GoString :=
  bytes "The --legacy option is deprecated (use --git=\"<1.8.2\" instead)"

/-- The variable `gitVersion` after lines 65-68: overwritten with
`"<1.8.2"` when `legacy` is set. -/
def gitVersionAfterLegacy (g : Globals) : GoString :=
  if g.legacy then bytes "<1.8.2" else g.gitVersion

/-- The composite literal of lines 70-79, read after lines 65-68. -/
def configOf (g : Globals) : Config :=
  { Path := g.path
    Origin := g.origin
    Prefixes := g.prefixes
    Target := g.target
    Commit := g.commit
    Debug := g.debug && !g.quiet
    Scratch := g.scratch
    GitVersion := gitVersionAfterLegacy g }

/-- Lines 60-109 of `main`, everything after `flag.Parse()`, on the flag
variables `g` as parsing left them. `Split` is the collaborator
`splitter.Split`: for a configuration, the error it returns (`none` is
`nil`) and the `Result` it leaves behind. The output of the progress
goroutine, which runs concurrently with `Split`, is not part of the
events. -/
def mainBody (g : Globals) (Split : Config → Option GoString × Result) : List Event :=
  if g.prefixes.length == 0 then
    [.stdout (Println noPrefixMessage), .exit 1]
  else
    let warn : List Event := if g.legacy then [.stderr legacyWarning] else []
    let config := configOf g
    let ticker := g.progress && !g.debug && !g.quiet
    let start : List Event := if ticker then [.tickerStart] else []
    let (err, result) := Split config
    warn ++ start ++ [.split config] ++
      match err with
      | some e => [.stdout (Println e), .exit 1]
      | none =>
        (if ticker then [.tickerStop] else []) ++
        (if !g.quiet then [.stderr (summaryLine result)] else []) ++
        (match result.Head with
         | some head => [.stdout (Println head.String)]
         | none => [])

/-- The function `main`: `flag.Parse()` on the command line, starting from
the variables as `init` set them, then lines 60-109. The command-line flag
set exits with status 2 when a flag's `Set` fails. -/
def main (args : List FlagArg) (Split : Config → Option GoString × Result) : List Event :=
  match Parse args init with
  | .error err => [.flagError err, .exit 2]
  | .ok g => mainBody g Split

/-- The exit status of a run: the code of its `os.Exit`, and 0 when `main`
returns. -/
def exitStatus : List Event → Nat
  | [] => 0
  | .exit code :: _ => code
  | _ :: rest => exitStatus rest

/-- Everything a run wrote to standard output, in order. -/
def stdoutOf : List Event → GoString
  | [] => []
  | .stdout s :: rest => s ++ stdoutOf rest
  | _ :: rest => stdoutOf rest

/-- The configurations `splitter.Split` was called with, in order. -/
def splitCalls : List Event → List Config
  | [] => []
  | .split c :: rest => c :: splitCalls rest
  | _ :: rest => splitCalls rest

/-! ## Notions the properties are stated with -/

/-- The part of `value` before its first `':'`, the whole of `value` when
it has none. -/
def beforeFirstColon (value : GoString) : GoString :=
  value.takeWhile (fun b => b != colon)

/-- What follows the first `':'` of `value`; empty when it has none. -/
def afterFirstColon (value : GoString) : GoString :=
  (value.dropWhile (fun b => b != colon)).drop 1

/-- The part of `value` between its first and its second `':'`, up to the
end of `value` when it has only one, and empty when it has none. -/
def betweenFirstAndSecondColon (value : GoString) : GoString :=
  beforeFirstColon (afterFirstColon value)

/-- Calling `Set` on each value in order, a failing call leaving the list
as it was (which is what `Set` returns as the list in that case). -/
def setAll (p : prefixesFlag) : List GoString → prefixesFlag
  | [] => p
  | value :: rest => setAll (prefixesFlag.Set p value).1 rest

/-- The values of the `--prefix` occurrences of a command line, in order. -/
def prefixValues : List FlagArg → List GoString
  | [] => []
  | .prefixValue value :: rest => value :: prefixValues rest
  | _ :: rest => prefixValues rest

/-- The value passed to `--git`: that of its last occurrence on the command
line, `current` when there is none. -/
def gitValue (current : GoString) : List FlagArg → GoString
  | [] => current
  | .git value :: rest => gitValue value rest
  | _ :: rest => gitValue current rest

/-- No two entries at different positions have the same `To`. -/
def UniqueTargets (p : prefixesFlag) : Prop :=
  ∀ i j : Nat, ∀ hi : i < p.length, ∀ hj : j < p.length,
    (p.get ⟨i, hi⟩).To = (p.get ⟨j, hj⟩).To → i = j

/-! ## Concrete inputs -/

/-- The flag variables after `--prefix lib --progress`. -/
def sampleGlobals : Globals :=
  { init with prefixes := [{ From := bytes "lib", To := bytes "" }], progress := true }

/-- The command line `--prefix lib --progress`. -/
def sampleArgs : List FlagArg := [.prefixValue (bytes "lib"), .progress true]

/-- A `Split` that succeeds, with a head. -/
def sampleSplitOk : Config → Option GoString × Result :=
  fun _ => (none, { Created := 3, Traversed := 5, Duration := bytes "12ms",
                    Head := some { String := bytes "4f2a" } })

/-- A `Split` that succeeds with nothing to split: no head. -/
def sampleSplitNoHead : Config → Option GoString × Result :=
  fun _ => (none, { Created := 0, Traversed := 5, Duration := bytes "12ms", Head := none })

/-- A `Split` that fails. -/
def sampleSplitError : Config → Option GoString × Result :=
  fun _ => (some (bytes "reference not found"),
            { Created := 0, Traversed := 0, Duration := bytes "0ms", Head := none })

/-! ## `strings.Split` -/

theorem strings.Count_le_length (s : GoString) (c : UInt8) :
    strings.Count s c ≤ s.length := by
  induction s with
  | nil => simp [strings.Count]
  | cons b s ih =>
    simp only [strings.Count, List.length_cons]
    split <;> omega

theorem strings.Index_none {s : GoString} {c : UInt8} (h : strings.Index s c = none) :
    s.takeWhile (fun b => b != c) = s ∧ s.dropWhile (fun b => b != c) = [] ∧
      strings.Count s c = 0 := by
  induction s with
  | nil => simp [strings.Count]
  | cons b s ih =>
    simp only [strings.Index] at h
    by_cases hb : b = c
    · simp [hb] at h
    · simp only [hb, if_false, Option.map_eq_none'] at h
      obtain ⟨h1, h2, h3⟩ := ih h
      have hbne : (b != c) = true := by simp [hb]
      simp [List.takeWhile_cons, List.dropWhile_cons, strings.Count, hb, hbne, h1, h2, h3]

theorem strings.Index_some {s : GoString} {c : UInt8} {m : Nat}
    (h : strings.Index s c = some m) :
    s.take m = s.takeWhile (fun b => b != c) ∧
      s.drop (m + 1) = (s.dropWhile (fun b => b != c)).drop 1 ∧
      strings.Count s c = strings.Count (s.drop (m + 1)) c + 1 := by
  induction s generalizing m with
  | nil => simp [strings.Index] at h
  | cons b s ih =>
    simp only [strings.Index] at h
    by_cases hb : b = c
    · simp only [hb, if_true, Option.some.injEq] at h
      subst h
      have hbeq : (c != c) = false := by simp
      simp [List.takeWhile_cons, List.dropWhile_cons, strings.Count, hb, hbeq]
      omega
    · simp only [hb, if_false, Option.map_eq_some'] at h
      obtain ⟨k, hk, rfl⟩ := h
      obtain ⟨h1, h2, h3⟩ := ih hk
      have hbne : (b != c) = true := by simp [hb]
      simp [List.takeWhile_cons, List.dropWhile_cons, strings.Count, hb, hbne, h1, h2, h3]

/-- The recursive equation of `Split`: cut at the first separator and split
what follows it. -/
theorem strings.Split_eq (s : GoString) (c : UInt8) :
    strings.Split s c =
      match strings.Index s c with
      | none => [s]
      | some m => s.take m :: strings.Split (s.drop (m + 1)) c := by
  have hk : ∀ t : GoString,
      min (strings.Count t c + 1) (t.length + 1) - 1 = strings.Count t c := by
    intro t
    have := strings.Count_le_length t c
    omega
  unfold strings.Split
  rw [hk s]
  cases h : strings.Index s c with
  | none =>
    rw [(strings.Index_none h).2.2]
    simp [strings.genSplit]
  | some m =>
    rw [(strings.Index_some h).2.2]
    simp only [strings.genSplit, h, hk]

theorem strings.Split_ne_nil (s : GoString) (c : UInt8) : strings.Split s c ≠ [] := by
  rw [strings.Split_eq]
  cases strings.Index s c <;> simp

/-- Lines 20-25 compute the part before the first colon and the part
between the first and the second colon. -/
theorem parseValue_eq (value : GoString) :
    prefixesFlag.parseValue value =
      (beforeFirstColon value, betweenFirstAndSecondColon value) := by
  unfold prefixesFlag.parseValue beforeFirstColon betweenFirstAndSecondColon
    afterFirstColon beforeFirstColon
  rw [strings.Split_eq]
  cases h : strings.Index value colon with
  | none =>
    obtain ⟨h1, h2, -⟩ := strings.Index_none h
    simp [h1, h2]
  | some m =>
    obtain ⟨h1, h2, -⟩ := strings.Index_some h
    have hne := strings.Split_ne_nil (List.drop (m + 1) value) colon
    have hhead : (strings.Split (List.drop (m + 1) value) colon).getD 0 [] =
        List.takeWhile (fun b => b != colon) (List.drop (m + 1) value) := by
      rw [strings.Split_eq]
      cases h' : strings.Index (List.drop (m + 1) value) colon with
      | none => simp [(strings.Index_none h').1]
      | some m' => simp [(strings.Index_some h').1]
    cases hs : strings.Split (List.drop (m + 1) value) colon with
    | nil => exact absurd hs hne
    | cons x xs =>
      rw [hs] at hhead
      simp only [List.getD_cons_zero] at hhead
      simp [h1, ← h2, hs, hhead]

/-! ## `beforeFirstColon` and `betweenFirstAndSecondColon` -/

theorem colon_not_mem_beforeFirstColon (value : GoString) :
    colon ∉ beforeFirstColon value := by
  unfold beforeFirstColon
  intro h
  have := List.mem_takeWhile_imp h
  simp at this

/-- A value with a colon is the part before it, the colon, and what
follows. -/
theorem eq_before_colon_after (value : GoString) (h : colon ∈ value) :
    value = beforeFirstColon value ++ colon :: afterFirstColon value := by
  unfold beforeFirstColon afterFirstColon
  induction value with
  | nil => simp at h
  | cons b s ih =>
    by_cases hb : b = colon
    · have hbeq : (colon != colon) = false := by simp
      simp [hb, List.takeWhile_cons, List.dropWhile_cons, hbeq]
    · have hbne : (b != colon) = true := by simp [hb]
      have hs : colon ∈ s := by
        rcases List.mem_cons.1 h with h | h
        · exact absurd h.symm hb
        · exact h
      have := ih hs
      simp only [List.takeWhile_cons, List.dropWhile_cons, hbne, if_true, List.cons_append]
      exact congrArg (List.cons b) this

theorem beforeFirstColon_of_not_mem (value : GoString) (h : colon ∉ value) :
    beforeFirstColon value = value := by
  unfold beforeFirstColon
  rw [List.takeWhile_eq_self_iff]
  intro b hb
  have : b ≠ colon := fun e => h (e ▸ hb)
  simp [this]

theorem afterFirstColon_of_not_mem (value : GoString) (h : colon ∉ value) :
    afterFirstColon value = [] := by
  unfold afterFirstColon
  have : List.dropWhile (fun b => b != colon) value = [] := by
    rw [List.dropWhile_eq_nil_iff]
    intro b hb
    have : b ≠ colon := fun e => h (e ▸ hb)
    simp [this]
  simp [this]

theorem beforeFirstColon_append_colon (f t : GoString) (hf : colon ∉ f) :
    beforeFirstColon (f ++ colon :: t) = f ∧ afterFirstColon (f ++ colon :: t) = t := by
  unfold beforeFirstColon afterFirstColon
  induction f with
  | nil =>
    have hbeq : (colon != colon) = false := by simp
    simp [List.takeWhile_cons, List.dropWhile_cons, hbeq]
  | cons b s ih =>
    have hb : b ≠ colon := fun e => hf (by simp [e])
    have hs : colon ∉ s := fun e => hf (List.mem_cons_of_mem _ e)
    have hbne : (b != colon) = true := by simp [hb]
    obtain ⟨h1, h2⟩ := ih hs
    simp only [List.cons_append, List.takeWhile_cons, List.dropWhile_cons, hbne, if_true]
    exact ⟨congrArg (List.cons b) h1, h2⟩

/-! ## `prefixesFlag.Set` -/

theorem checkUnique_eq_none_iff (p : prefixesFlag) (from_ to_ : GoString) :
    prefixesFlag.checkUnique p from_ to_ = none ↔ ∀ q ∈ p, q.To ≠ to_ := by
  induction p with
  | nil => simp [prefixesFlag.checkUnique]
  | cons q rest ih =>
    simp only [prefixesFlag.checkUnique]
    by_cases h : q.To = to_
    · simp [h]
    · simp [h, ih]

/-- A successful call: no entry has the parsed target, and the parsed prefix
is appended. -/
theorem Set_of_fresh (p : prefixesFlag) (value : GoString)
    (h : ∀ q ∈ p, q.To ≠ (prefixesFlag.parseValue value).2) :
    prefixesFlag.Set p value =
      (p ++ [{ From := (prefixesFlag.parseValue value).1,
               To := (prefixesFlag.parseValue value).2 }], none) := by
  have hc := (checkUnique_eq_none_iff p (prefixesFlag.parseValue value).1
    (prefixesFlag.parseValue value).2).2 h
  simp only [prefixesFlag.Set, hc]

/-- A failing call: some entry has the parsed target, and the list is the
one the call started from. -/
theorem Set_of_clash (p : prefixesFlag) (value : GoString)
    (h : ∃ q ∈ p, q.To = (prefixesFlag.parseValue value).2) :
    (prefixesFlag.Set p value).1 = p ∧ (prefixesFlag.Set p value).2 ≠ none := by
  have hc : prefixesFlag.checkUnique p (prefixesFlag.parseValue value).1
      (prefixesFlag.parseValue value).2 ≠ none := by
    rw [Ne, checkUnique_eq_none_iff]
    obtain ⟨q, hq, hqt⟩ := h
    exact fun hall => hall q hq hqt
  cases hcu : prefixesFlag.checkUnique p (prefixesFlag.parseValue value).1
      (prefixesFlag.parseValue value).2 with
  | none => exact absurd hcu hc
  | some err => simp [prefixesFlag.Set, hcu]

theorem Set_cases (p : prefixesFlag) (value : GoString) :
    ((∀ q ∈ p, q.To ≠ (prefixesFlag.parseValue value).2) ∧
      prefixesFlag.Set p value =
        (p ++ [{ From := (prefixesFlag.parseValue value).1,
                 To := (prefixesFlag.parseValue value).2 }], none)) ∨
    ((∃ q ∈ p, q.To = (prefixesFlag.parseValue value).2) ∧
      (prefixesFlag.Set p value).1 = p ∧ (prefixesFlag.Set p value).2 ≠ none) := by
  by_cases h : ∃ q ∈ p, q.To = (prefixesFlag.parseValue value).2
  · exact Or.inr ⟨h, Set_of_clash p value h⟩
  · have h' : ∀ q ∈ p, q.To ≠ (prefixesFlag.parseValue value).2 :=
      fun q hq e => h ⟨q, hq, e⟩
    exact Or.inl ⟨h', Set_of_fresh p value h'⟩

theorem uniqueTargets_iff_nodup (p : prefixesFlag) :
    UniqueTargets p ↔ (p.map (fun q => q.To)).Nodup := by
  unfold UniqueTargets
  rw [List.nodup_iff_injective_get]
  constructor
  · intro h a b hab
    have ha : a.1 < p.length := by simpa using a.2
    have hb : b.1 < p.length := by simpa using b.2
    have := h a.1 b.1 ha hb (by simpa using hab)
    exact Fin.ext this
  · intro h i j hi hj hij
    have hi' : i < (p.map (fun q => q.To)).length := by simpa using hi
    have hj' : j < (p.map (fun q => q.To)).length := by simpa using hj
    have := @h ⟨i, hi'⟩ ⟨j, hj'⟩ (by simpa using hij)
    exact congrArg Fin.val this

theorem Set_preserves_nodup (p : prefixesFlag) (value : GoString)
    (h : (p.map (fun q => q.To)).Nodup) :
    ((prefixesFlag.Set p value).1.map (fun q => q.To)).Nodup := by
  rcases Set_cases p value with ⟨hfresh, hset⟩ | ⟨-, hsame, -⟩
  · rw [hset]
    simp only [List.map_append, List.map_cons, List.map_nil]
    rw [List.nodup_append]
    refine ⟨h, List.nodup_singleton _, ?_⟩
    intro a ha hb
    obtain ⟨q, hq, rfl⟩ := List.mem_map.1 ha
    exact hfresh q hq (by simpa using hb)
  · rw [hsame]; exact h

theorem setAll_preserves_nodup (values : List GoString) (p : prefixesFlag)
    (h : (p.map (fun q => q.To)).Nodup) :
    ((setAll p values).map (fun q => q.To)).Nodup := by
  induction values generalizing p with
  | nil => exact h
  | cons value rest ih => exact ih _ (Set_preserves_nodup p value h)

/-- C1: starting from the empty list and calling `Set` on each value of any
finite sequence in order, a failing call leaving the list as it was, the
resulting list has no two entries at different positions with the same
`To`. -/
theorem C1_setAll_unique_targets (values : List GoString) :
    UniqueTargets (setAll [] values) :=
  (uniqueTargets_iff_nodup _).2 (setAll_preserves_nodup values [] (by simp))

/-- C2: `Set` returns an error exactly when an entry already in the list has
a `To` equal to the target parsed from the value, and a call that returns an
error leaves the list exactly as it was. -/
theorem C2_Set_error_iff_clash (p : prefixesFlag) (value : GoString) :
    ((prefixesFlag.Set p value).2 ≠ none ↔
        ∃ q ∈ p, q.To = (prefixesFlag.parseValue value).2) ∧
      ((prefixesFlag.Set p value).2 ≠ none → (prefixesFlag.Set p value).1 = p) := by
  rcases Set_cases p value with ⟨hfresh, hset⟩ | ⟨hclash, hsame, herr⟩
  · refine ⟨⟨fun he => absurd (by rw [hset]) he, ?_⟩, fun he => absurd (by rw [hset]) he⟩
    rintro ⟨q, hq, hqt⟩
    exact absurd hqt (hfresh q hq)
  · exact ⟨⟨fun _ => hclash, fun _ => herr⟩, fun _ => hsame⟩

/-- C2 at the list holding `a -> x` and the value `b:x`: the call fails and
the list is unchanged. -/
theorem C2_Set_error_iff_clash_witness :
    (prefixesFlag.Set [{ From := bytes "a", To := bytes "x" }] (bytes "b:x")).2 ≠ none ∧
      (prefixesFlag.Set [{ From := bytes "a", To := bytes "x" }] (bytes "b:x")).1 =
        [{ From := bytes "a", To := bytes "x" }] :=
  ⟨by decide,
   (C2_Set_error_iff_clash [{ From := bytes "a", To := bytes "x" }] (bytes "b:x")).2
     (by decide)⟩

/-- C3: for every value (the empty one included) the `From` parsed by `Set`
is the part before the first colon, the whole value when it has none, and
the `To` is the part between the first and the second colon, up to the end
when there is one colon and empty when there is none; a successful `Set`
appends exactly that prefix, and on the empty list, for `f` and `t` without
a colon, `Set(f + ":" + t)` appends `(f, t)` and `Set(f)` appends
`(f, "")`. -/
theorem C3_Set_parses_value (p : prefixesFlag) (value f t : GoString) :
    prefixesFlag.parseValue value =
        (beforeFirstColon value, betweenFirstAndSecondColon value) ∧
      (colon ∉ value →
        beforeFirstColon value = value ∧ betweenFirstAndSecondColon value = []) ∧
      (colon ∈ value → colon ∉ afterFirstColon value →
        betweenFirstAndSecondColon value = afterFirstColon value) ∧
      ((prefixesFlag.Set p value).2 = none →
        (prefixesFlag.Set p value).1 =
          p ++ [{ From := beforeFirstColon value,
                  To := betweenFirstAndSecondColon value }]) ∧
      prefixesFlag.Set [] value =
        ([{ From := beforeFirstColon value,
            To := betweenFirstAndSecondColon value }], none) ∧
      (colon ∉ f → colon ∉ t →
        prefixesFlag.Set [] (f ++ [colon] ++ t) = ([{ From := f, To := t }], none) ∧
        prefixesFlag.Set [] f = ([{ From := f, To := [] }], none)) := by
  have hempty : ∀ v : GoString, prefixesFlag.Set [] v =
      ([{ From := beforeFirstColon v, To := betweenFirstAndSecondColon v }], none) := by
    intro v
    have := Set_of_fresh [] v (by simp)
    rw [this, parseValue_eq]
    simp
  refine ⟨parseValue_eq value, ?_, ?_, ?_, hempty value, ?_⟩
  · intro h
    refine ⟨beforeFirstColon_of_not_mem value h, ?_⟩
    unfold betweenFirstAndSecondColon
    rw [afterFirstColon_of_not_mem value h]
    rfl
  · intro _ h
    exact beforeFirstColon_of_not_mem _ h
  · intro hok
    rcases Set_cases p value with ⟨-, hset⟩ | ⟨-, -, herr⟩
    · rw [hset, parseValue_eq]
    · exact absurd hok herr
  · intro hf ht
    constructor
    · rw [hempty]
      obtain ⟨h1, h2⟩ := beforeFirstColon_append_colon f t hf
      have e : f ++ [colon] ++ t = f ++ colon :: t := by simp
      rw [e]
      unfold betweenFirstAndSecondColon
      rw [h1, h2, beforeFirstColon_of_not_mem t ht]
    · rw [hempty]
      unfold betweenFirstAndSecondColon
      rw [beforeFirstColon_of_not_mem f hf, afterFirstColon_of_not_mem f hf]
      rfl

/-- C3 at `from:to` and at `from`, on the empty list. -/
theorem C3_Set_parses_value_witness :
    prefixesFlag.Set [] (bytes "from" ++ [colon] ++ bytes "to") =
        ([{ From := bytes "from", To := bytes "to" }], none) ∧
      prefixesFlag.Set [] (bytes "from") = ([{ From := bytes "from", To := [] }], none) :=
  (C3_Set_parses_value [] [] (bytes "from") (bytes "to")).2.2.2.2.2 (by decide) (by decide)

/-! ## `flag.Parse` -/

theorem applyFlag_prefixes (g g1 : Globals) (a : FlagArg) (h : applyFlag g a = .ok g1) :
    g1.prefixes = g.prefixes ++ (prefixValues [a]).map (fun v =>
      { From := (prefixesFlag.parseValue v).1, To := (prefixesFlag.parseValue v).2 }) := by
  cases a with
  | prefixValue value =>
    simp only [applyFlag] at h
    rcases Set_cases g.prefixes value with ⟨-, hset⟩ | ⟨-, -, herr⟩
    · rw [hset] at h
      simp only [Except.ok.injEq] at h
      subst h
      simp [prefixValues]
    · cases hs : prefixesFlag.Set g.prefixes value with
      | mk p1 e =>
        rw [hs] at h herr
        cases e with
        | none => exact absurd rfl herr
        | some err => simp at h
  | _ =>
    simp only [applyFlag, Except.ok.injEq] at h
    subst h
    simp [prefixValues]

theorem prefixValues_cons (a : FlagArg) (rest : List FlagArg) :
    prefixValues (a :: rest) = prefixValues [a] ++ prefixValues rest := by
  cases a <;> simp [prefixValues]

/-- After a successful parse the prefix list is what it was, followed by
the prefixes parsed from the `--prefix` values in command-line order. -/
theorem Parse_prefixes (args : List FlagArg) (g0 g : Globals) (h : Parse args g0 = .ok g) :
    g.prefixes = g0.prefixes ++ (prefixValues args).map (fun v =>
      { From := (prefixesFlag.parseValue v).1, To := (prefixesFlag.parseValue v).2 }) := by
  induction args generalizing g0 with
  | nil =>
    simp only [Parse, Except.ok.injEq] at h
    subst h
    simp [prefixValues]
  | cons a rest ih =>
    simp only [Parse] at h
    cases ha : applyFlag g0 a with
    | error err => rw [ha] at h; simp at h
    | ok g1 =>
      rw [ha] at h
      rw [prefixValues_cons a rest, ih g1 h, applyFlag_prefixes g0 g1 a ha]
      simp

theorem applyFlag_gitVersion (g g1 : Globals) (a : FlagArg) (h : applyFlag g a = .ok g1) :
    g1.gitVersion = gitValue g.gitVersion [a] := by
  cases a with
  | prefixValue value =>
    simp only [applyFlag] at h
    cases hs : prefixesFlag.Set g.prefixes value with
    | mk p1 e =>
      rw [hs] at h
      cases e with
      | none =>
        simp only [Except.ok.injEq] at h
        subst h
        simp [gitValue]
      | some err => simp at h
  | _ =>
    simp only [applyFlag, Except.ok.injEq] at h
    subst h
    simp [gitValue]

theorem gitValue_cons (current : GoString) (a : FlagArg) (rest : List FlagArg) :
    gitValue current (a :: rest) = gitValue (gitValue current [a]) rest := by
  cases a <;> simp [gitValue]

/-- After a successful parse `gitVersion` is the value passed to `--git`. -/
theorem Parse_gitVersion (args : List FlagArg) (g0 g : Globals) (h : Parse args g0 = .ok g) :
    g.gitVersion = gitValue g0.gitVersion args := by
  induction args generalizing g0 with
  | nil =>
    simp only [Parse, Except.ok.injEq] at h
    subst h
    simp [gitValue]
  | cons a rest ih =>
    simp only [Parse] at h
    cases ha : applyFlag g0 a with
    | error err => rw [ha] at h; simp at h
    | ok g1 =>
      rw [ha] at h
      rw [ih g1 h, applyFlag_gitVersion g0 g1 a ha, ← gitValue_cons]

theorem gitValue_of_no_git (current : GoString) (args : List FlagArg)
    (h : ∀ v, FlagArg.git v ∉ args) : gitValue current args = current := by
  induction args generalizing current with
  | nil => rfl
  | cons a rest ih =>
    have hrest : ∀ v, FlagArg.git v ∉ rest := fun v hv => h v (List.mem_cons_of_mem _ hv)
    cases a with
    | git value => exact absurd (List.mem_cons_self _ _) (h value)
    | _ => simp only [gitValue]; exact ih _ hrest

/-- Without a `--prefix` occurrence parsing succeeds: no `Set` is called. -/
theorem Parse_of_no_prefixValue (args : List FlagArg) (g0 : Globals)
    (h : ∀ v, FlagArg.prefixValue v ∉ args) :
    ∃ g, Parse args g0 = .ok g ∧ g.prefixes = g0.prefixes := by
  induction args generalizing g0 with
  | nil => exact ⟨g0, rfl, rfl⟩
  | cons a rest ih =>
    have hrest : ∀ v, FlagArg.prefixValue v ∉ rest :=
      fun v hv => h v (List.mem_cons_of_mem _ hv)
    cases a with
    | prefixValue value => exact absurd (List.mem_cons_self _ _) (h value)
    | origin value =>
      obtain ⟨g, hg, hp⟩ := ih { g0 with origin := value } hrest
      exact ⟨g, by simp [Parse, applyFlag, hg], hp⟩
    | target value =>
      obtain ⟨g, hg, hp⟩ := ih { g0 with target := value } hrest
      exact ⟨g, by simp [Parse, applyFlag, hg], hp⟩
    | commit value =>
      obtain ⟨g, hg, hp⟩ := ih { g0 with commit := value } hrest
      exact ⟨g, by simp [Parse, applyFlag, hg], hp⟩
    | path value =>
      obtain ⟨g, hg, hp⟩ := ih { g0 with path := value } hrest
      exact ⟨g, by simp [Parse, applyFlag, hg], hp⟩
    | scratch value =>
      obtain ⟨g, hg, hp⟩ := ih { g0 with scratch := value } hrest
      exact ⟨g, by simp [Parse, applyFlag, hg], hp⟩
    | debug value =>
      obtain ⟨g, hg, hp⟩ := ih { g0 with debug := value } hrest
      exact ⟨g, by simp [Parse, applyFlag, hg], hp⟩
    | quiet value =>
      obtain ⟨g, hg, hp⟩ := ih { g0 with quiet := value } hrest
      exact ⟨g, by simp [Parse, applyFlag, hg], hp⟩
    | legacy value =>
      obtain ⟨g, hg, hp⟩ := ih { g0 with legacy := value } hrest
      exact ⟨g, by simp [Parse, applyFlag, hg], hp⟩
    | git value =>
      obtain ⟨g, hg, hp⟩ := ih { g0 with gitVersion := value } hrest
      exact ⟨g, by simp [Parse, applyFlag, hg], hp⟩
    | progress value =>
      obtain ⟨g, hg, hp⟩ := ih { g0 with progress := value } hrest
      exact ⟨g, by simp [Parse, applyFlag, hg], hp⟩

/-! ## `main` -/

theorem mainBody_of_empty_list (g : Globals) (Split : Config → Option GoString × Result)
    (h : g.prefixes = []) :
    mainBody g Split = [.stdout (Println noPrefixMessage), .exit 1] := by
  simp [mainBody, h]

/-- The run of `main` past the check of line 60 when `Split` fails. -/
theorem mainBody_of_Split_error (g : Globals) (Split : Config → Option GoString × Result)
    (h : g.prefixes ≠ []) (e : GoString) (he : (Split (configOf g)).1 = some e) :
    mainBody g Split =
      (if g.legacy then [.stderr legacyWarning] else []) ++
      (if (g.progress && !g.debug && !g.quiet) then [.tickerStart] else []) ++
      [.split (configOf g), .stdout (Println e), .exit 1] := by
  have hlen : ¬ g.prefixes.length = 0 := fun hl => h (List.length_eq_zero.1 hl)
  cases hS : Split (configOf g) with
  | mk err result =>
    rw [hS] at he
    simp only at he
    subst he
    simp [mainBody, hlen, hS]

/-- The run of `main` past the check of line 60 when `Split` succeeds. -/
theorem mainBody_of_Split_ok (g : Globals) (Split : Config → Option GoString × Result)
    (h : g.prefixes ≠ []) (he : (Split (configOf g)).1 = none) :
    mainBody g Split =
      (if g.legacy then [.stderr legacyWarning] else []) ++
      (if (g.progress && !g.debug && !g.quiet) then [.tickerStart] else []) ++
      [.split (configOf g)] ++
      (if (g.progress && !g.debug && !g.quiet) then [.tickerStop] else []) ++
      (if !g.quiet then [.stderr (summaryLine (Split (configOf g)).2)] else []) ++
      (match (Split (configOf g)).2.Head with
       | some head => [.stdout (Println head.String)]
       | none => []) := by
  have hlen : ¬ g.prefixes.length = 0 := fun hl => h (List.length_eq_zero.1 hl)
  cases hS : Split (configOf g) with
  | mk err result =>
    rw [hS] at he
    simp only at he
    subst he
    simp [mainBody, hlen, hS]

theorem splitCalls_mainBody (g : Globals) (Split : Config → Option GoString × Result)
    (h : g.prefixes ≠ []) : splitCalls (mainBody g Split) = [configOf g] := by
  cases he : (Split (configOf g)).1 with
  | some e =>
    rw [mainBody_of_Split_error g Split h e he]
    cases g.legacy <;> cases g.progress <;> cases g.debug <;> cases g.quiet <;>
      simp [splitCalls]
  | none =>
    rw [mainBody_of_Split_ok g Split h he]
    cases g.legacy <;> cases g.progress <;> cases g.debug <;> cases g.quiet <;>
      cases (Split (configOf g)).2.Head <;> simp [splitCalls]

theorem mem_splitCalls_mainBody (g : Globals) (Split : Config → Option GoString × Result)
    (cfg : Config) (h : cfg ∈ splitCalls (mainBody g Split)) :
    g.prefixes ≠ [] ∧ cfg = configOf g := by
  by_cases hp : g.prefixes = []
  · rw [mainBody_of_empty_list g Split hp] at h
    simp [splitCalls] at h
  · rw [splitCalls_mainBody g Split hp] at h
    exact ⟨hp, by simpa using h⟩

theorem tickerStart_mem_mainBody (g : Globals) (Split : Config → Option GoString × Result)
    (h : g.prefixes ≠ []) :
    Event.tickerStart ∈ mainBody g Split ↔
      g.progress = true ∧ g.debug = false ∧ g.quiet = false := by
  cases he : (Split (configOf g)).1 with
  | some e =>
    rw [mainBody_of_Split_error g Split h e he]
    cases g.legacy <;> cases g.progress <;> cases g.debug <;> cases g.quiet <;> simp
  | none =>
    rw [mainBody_of_Split_ok g Split h he]
    cases g.legacy <;> cases g.progress <;> cases g.debug <;> cases g.quiet <;>
      cases (Split (configOf g)).2.Head <;> simp

theorem main_of_Parse (args : List FlagArg) (g : Globals)
    (Split : Config → Option GoString × Result) (h : Parse args init = .ok g) :
    main args Split = mainBody g Split := by
  simp [main, h]

theorem Println_ne_nil (s : GoString) : Println s ≠ [] := by
  simp [Println]

theorem summaryLine_ne_legacyWarning (r : Result) : summaryLine r ≠ legacyWarning := by
  intro h
  have h1 : (summaryLine r).getLast? = some newline := by
    simp [summaryLine]
  have h2 : legacyWarning.getLast? = some 41 := by decide
  rw [h, h2] at h1
  exact absurd h1 (by decide)

/-- A run in which `Split` succeeds never calls `os.Exit`. -/
theorem mainBody_returns_of_Split_ok (g : Globals) (Split : Config → Option GoString × Result)
    (hne : g.prefixes ≠ []) (hok : (Split (configOf g)).1 = none) :
    (∀ code, Event.exit code ∉ mainBody g Split) ∧ exitStatus (mainBody g Split) = 0 := by
  rw [mainBody_of_Split_ok g Split hne hok]
  constructor
  · intro code
    cases g.legacy <;> cases g.progress <;> cases g.debug <;> cases g.quiet <;>
      cases (Split (configOf g)).2.Head <;> simp
  · cases g.legacy <;> cases g.progress <;> cases g.debug <;> cases g.quiet <;>
      cases (Split (configOf g)).2.Head <;> simp [exitStatus]

/-! ## The properties of `main` and of the prefix list -/

/-- C4: with an empty prefix list `main` prints the "You must provide the
directory to split via the --prefix flag" line and exits with status 1, and
that is the whole run: no configuration reaches `splitter.Split`. This is
the run of every command line without `--prefix`. Conversely every
configuration `Split` is called with has a non-empty `Prefixes`. -/
theorem C4_no_prefix_fails_fast (args : List FlagArg) (g : Globals)
    (Split : Config → Option GoString × Result) :
    (g.prefixes = [] →
        mainBody g Split = [.stdout (Println noPrefixMessage), .exit 1] ∧
        exitStatus (mainBody g Split) = 1 ∧
        splitCalls (mainBody g Split) = []) ∧
      (∀ cfg ∈ splitCalls (mainBody g Split), cfg.Prefixes ≠ []) ∧
      ((∀ v, FlagArg.prefixValue v ∉ args) →
        main args Split = [.stdout (Println noPrefixMessage), .exit 1]) ∧
      (∀ cfg ∈ splitCalls (main args Split), cfg.Prefixes ≠ []) := by
  have hbody : ∀ g' : Globals, ∀ cfg ∈ splitCalls (mainBody g' Split), cfg.Prefixes ≠ [] := by
    intro g' cfg hcfg
    obtain ⟨hne, rfl⟩ := mem_splitCalls_mainBody g' Split cfg hcfg
    exact hne
  refine ⟨?_, hbody g, ?_, ?_⟩
  · intro h
    rw [mainBody_of_empty_list g Split h]
    exact ⟨rfl, rfl, rfl⟩
  · intro h
    obtain ⟨g1, hg1, hp⟩ := Parse_of_no_prefixValue args init h
    rw [main_of_Parse args g1 Split hg1]
    exact mainBody_of_empty_list g1 Split hp
  · intro cfg hcfg
    cases hP : Parse args init with
    | error err =>
      simp [main, hP, splitCalls] at hcfg
    | ok g1 =>
      rw [main_of_Parse args g1 Split hP] at hcfg
      exact hbody g1 cfg hcfg

/-- C4 at the variables as `init` leaves them and at the command line `--progress`. -/
theorem C4_no_prefix_fails_fast_witness :
    mainBody init sampleSplitOk = [.stdout (Println noPrefixMessage), .exit 1] ∧
      exitStatus (mainBody init sampleSplitOk) = 1 ∧
      splitCalls (mainBody init sampleSplitOk) = [] ∧
      main [.progress true] sampleSplitOk = [.stdout (Println noPrefixMessage), .exit 1] :=
  ⟨((C4_no_prefix_fails_fast [] init sampleSplitOk).1 rfl).1,
   ((C4_no_prefix_fails_fast [] init sampleSplitOk).1 rfl).2.1,
   ((C4_no_prefix_fails_fast [] init sampleSplitOk).1 rfl).2.2,
   (C4_no_prefix_fails_fast [.progress true] init sampleSplitOk).2.2.1 (by simp)⟩

/-- C5: a successful `Set` leaves the list as it was followed by the one
newly parsed prefix: the length grows by one and every earlier entry keeps
its position and its fields. The configuration handed to `Split` carries
the prefix list unchanged and in the same order, and after parsing that
list is the prefixes of the `--prefix` values in command-line order. -/
theorem C5_prefix_list_ordered (p : prefixesFlag) (value : GoString)
    (args : List FlagArg) (g : Globals) (Split : Config → Option GoString × Result) :
    ((prefixesFlag.Set p value).2 = none →
        (prefixesFlag.Set p value).1 =
          p ++ [{ From := (prefixesFlag.parseValue value).1,
                  To := (prefixesFlag.parseValue value).2 }] ∧
        (prefixesFlag.Set p value).1.length = p.length + 1 ∧
        ∀ i : Nat, i < p.length → (prefixesFlag.Set p value).1[i]? = p[i]?) ∧
      (g.prefixes ≠ [] →
        ∃ cfg, splitCalls (mainBody g Split) = [cfg] ∧ cfg.Prefixes = g.prefixes) ∧
      (∀ cfg ∈ splitCalls (mainBody g Split), cfg.Prefixes = g.prefixes) ∧
      (Parse args init = .ok g →
        main args Split = mainBody g Split ∧
        g.prefixes = (prefixValues args).map (fun v =>
          { From := (prefixesFlag.parseValue v).1,
            To := (prefixesFlag.parseValue v).2 })) := by
  refine ⟨?_, ?_, ?_, ?_⟩
  · intro hok
    rcases Set_cases p value with ⟨-, hset⟩ | ⟨-, -, herr⟩
    · rw [hset]
      refine ⟨rfl, by simp, ?_⟩
      intro i hi
      simp [List.getElem?_append_left hi]
    · exact absurd hok herr
  · intro hne
    exact ⟨configOf g, splitCalls_mainBody g Split hne, rfl⟩
  · intro cfg hcfg
    obtain ⟨-, rfl⟩ := mem_splitCalls_mainBody g Split cfg hcfg
    rfl
  · intro hP
    refine ⟨main_of_Parse args g Split hP, ?_⟩
    have := Parse_prefixes args init g hP
    simpa [init] using this

/-- C5 at the list holding `a -> x` with the value `b:y`, and at the run of `--prefix lib --progress`. -/
theorem C5_prefix_list_ordered_witness :
    (prefixesFlag.Set [{ From := bytes "a", To := bytes "x" }] (bytes "b:y")).1 =
        [{ From := bytes "a", To := bytes "x" }] ++
          [{ From := (prefixesFlag.parseValue (bytes "b:y")).1,
             To := (prefixesFlag.parseValue (bytes "b:y")).2 }] ∧
      (∃ cfg, splitCalls (mainBody sampleGlobals sampleSplitOk) = [cfg] ∧
        cfg.Prefixes = sampleGlobals.prefixes) ∧
      main sampleArgs sampleSplitOk = mainBody sampleGlobals sampleSplitOk :=
  ⟨((C5_prefix_list_ordered [{ From := bytes "a", To := bytes "x" }] (bytes "b:y")
      sampleArgs sampleGlobals sampleSplitOk).1 (by decide)).1,
   (C5_prefix_list_ordered [] [] sampleArgs sampleGlobals sampleSplitOk).2.1 (by decide),
   ((C5_prefix_list_ordered [] [] sampleArgs sampleGlobals sampleSplitOk).2.2.2
      rfl).1⟩

/-- C6: the configuration `main` hands to `Split` has `GitVersion` exactly
`"<1.8.2"` when `legacy` is set, whatever `--git` was given, and exactly the
`--git` value when `legacy` is not set; the `--git` value is `"latest"` when
the command line has no `--git`. -/
theorem C6_git_version_selection (args : List FlagArg) (g : Globals)
    (Split : Config → Option GoString × Result) :
    (g.prefixes ≠ [] → ∃ cfg, splitCalls (mainBody g Split) = [cfg]) ∧
      (∀ cfg ∈ splitCalls (mainBody g Split),
        (g.legacy = true → cfg.GitVersion = bytes "<1.8.2") ∧
        (g.legacy = false → cfg.GitVersion = g.gitVersion)) ∧
      (Parse args init = .ok g →
        main args Split = mainBody g Split ∧
        g.gitVersion = gitValue (bytes "latest") args) ∧
      ((∀ v, FlagArg.git v ∉ args) → gitValue (bytes "latest") args = bytes "latest") := by
  refine ⟨fun hne => ⟨configOf g, splitCalls_mainBody g Split hne⟩, ?_, ?_, ?_⟩
  · intro cfg hcfg
    obtain ⟨-, rfl⟩ := mem_splitCalls_mainBody g Split cfg hcfg
    constructor
    · intro hl
      simp [configOf, gitVersionAfterLegacy, hl]
    · intro hl
      simp [configOf, gitVersionAfterLegacy, hl]
  · intro hP
    refine ⟨main_of_Parse args g Split hP, ?_⟩
    have := Parse_gitVersion args init g hP
    simpa [init] using this
  · exact gitValue_of_no_git _ args

/-- C6 at the run of `--prefix lib --progress`, which has no `--git`. -/
theorem C6_git_version_selection_witness :
    (∃ cfg, splitCalls (mainBody sampleGlobals sampleSplitOk) = [cfg]) ∧
      (main sampleArgs sampleSplitOk = mainBody sampleGlobals sampleSplitOk ∧
        sampleGlobals.gitVersion = gitValue (bytes "latest") sampleArgs) ∧
      gitValue (bytes "latest") sampleArgs = bytes "latest" :=
  ⟨(C6_git_version_selection sampleArgs sampleGlobals sampleSplitOk).1 (by decide),
   (C6_git_version_selection sampleArgs sampleGlobals sampleSplitOk).2.2.1 rfl,
   (C6_git_version_selection sampleArgs sampleGlobals sampleSplitOk).2.2.2
     (by simp [sampleArgs])⟩

/-- C7: in a run that gets to build its configuration (the prefix list is
not empty), for every combination of `progress`, `debug` and `quiet`, the
progress reporter is started exactly when `progress` is set and neither
`debug` nor `quiet` is, and `Config.Debug` is true exactly when `debug` is
set and `quiet` is not; and in no run at all are the reporter and
`Config.Debug` both active. -/
theorem C7_progress_excludes_debug (g : Globals)
    (Split : Config → Option GoString × Result) :
    (g.prefixes ≠ [] →
        (Event.tickerStart ∈ mainBody g Split ↔
          g.progress = true ∧ g.debug = false ∧ g.quiet = false) ∧
        ∃ cfg, splitCalls (mainBody g Split) = [cfg] ∧
          (cfg.Debug = true ↔ g.debug = true ∧ g.quiet = false)) ∧
      ¬ (Event.tickerStart ∈ mainBody g Split ∧
          ∃ cfg ∈ splitCalls (mainBody g Split), cfg.Debug = true) := by
  constructor
  · intro hne
    refine ⟨tickerStart_mem_mainBody g Split hne, configOf g,
      splitCalls_mainBody g Split hne, ?_⟩
    simp [configOf]
  · rintro ⟨hstart, cfg, hcfg, hdebug⟩
    obtain ⟨hne, rfl⟩ := mem_splitCalls_mainBody g Split cfg hcfg
    obtain ⟨-, hd, -⟩ := (tickerStart_mem_mainBody g Split hne).1 hstart
    simp [configOf, hd] at hdebug

/-- C7 at the run of `--prefix lib --progress`. -/
theorem C7_progress_excludes_debug_witness :
    (Event.tickerStart ∈ mainBody sampleGlobals sampleSplitOk ↔
        sampleGlobals.progress = true ∧ sampleGlobals.debug = false ∧
          sampleGlobals.quiet = false) ∧
      ∃ cfg, splitCalls (mainBody sampleGlobals sampleSplitOk) = [cfg] ∧
        (cfg.Debug = true ↔ sampleGlobals.debug = true ∧ sampleGlobals.quiet = false) :=
  (C7_progress_excludes_debug sampleGlobals sampleSplitOk).1 (by decide)

/-- C8: past the prefix check, when `Split` returns an error `main` prints
that error on standard output and exits with status 1; the run ends there,
so standard output holds nothing else (no head identifier) and the summary
line is not written. When `Split` returns `nil`, `main` never calls
`os.Exit` and its status is 0, not 1. -/
theorem C8_split_error_propagates (g : Globals)
    (Split : Config → Option GoString × Result) (hne : g.prefixes ≠ []) :
    (∀ e, (Split (configOf g)).1 = some e →
        mainBody g Split =
          (if g.legacy then [.stderr legacyWarning] else []) ++
          (if (g.progress && !g.debug && !g.quiet) then [.tickerStart] else []) ++
          [.split (configOf g), .stdout (Println e), .exit 1] ∧
        exitStatus (mainBody g Split) = 1 ∧
        stdoutOf (mainBody g Split) = Println e ∧
        ∀ r, Event.stderr (summaryLine r) ∉ mainBody g Split) ∧
      ((Split (configOf g)).1 = none →
        (∀ code, Event.exit code ∉ mainBody g Split) ∧
        exitStatus (mainBody g Split) = 0 ∧
        exitStatus (mainBody g Split) ≠ 1) := by
  constructor
  · intro e he
    refine ⟨mainBody_of_Split_error g Split hne e he, ?_, ?_, ?_⟩
    · rw [mainBody_of_Split_error g Split hne e he]
      cases g.legacy <;> cases g.progress <;> cases g.debug <;> cases g.quiet <;>
        simp [exitStatus]
    · rw [mainBody_of_Split_error g Split hne e he]
      cases g.legacy <;> cases g.progress <;> cases g.debug <;> cases g.quiet <;>
        simp [stdoutOf]
    · intro r
      have hs := summaryLine_ne_legacyWarning r
      rw [mainBody_of_Split_error g Split hne e he]
      cases g.legacy <;> cases g.progress <;> cases g.debug <;> cases g.quiet <;>
        simp [hs]
  · intro he
    rw [mainBody_of_Split_ok g Split hne he]
    refine ⟨?_, ?_, ?_⟩
    · intro code
      cases g.legacy <;> cases g.progress <;> cases g.debug <;> cases g.quiet <;>
        cases (Split (configOf g)).2.Head <;> simp
    · cases g.legacy <;> cases g.progress <;> cases g.debug <;> cases g.quiet <;>
        cases (Split (configOf g)).2.Head <;> simp [exitStatus]
    · cases g.legacy <;> cases g.progress <;> cases g.debug <;> cases g.quiet <;>
        cases (Split (configOf g)).2.Head <;> simp [exitStatus]

/-- C8 at the run of `--prefix lib --progress`, with a failing and with a successful `Split`. -/
theorem C8_split_error_propagates_witness :
    exitStatus (mainBody sampleGlobals sampleSplitError) = 1 ∧
      stdoutOf (mainBody sampleGlobals sampleSplitError) =
        Println (bytes "reference not found") ∧
      exitStatus (mainBody sampleGlobals sampleSplitOk) = 0 :=
  ⟨((C8_split_error_propagates sampleGlobals sampleSplitError (by decide)).1
      (bytes "reference not found") rfl).2.1,
   ((C8_split_error_propagates sampleGlobals sampleSplitError (by decide)).1
      (bytes "reference not found") rfl).2.2.1,
   ((C8_split_error_propagates sampleGlobals sampleSplitOk (by decide)).2 rfl).2.1⟩

/-- C9: after a successful `Split`, standard output receives the string form
of the head followed by the newline of `Println`, and nothing else, when
`Head()` is set, and nothing at all when it is not; so something is written
to standard output exactly when `Head()` is set. In both cases `main`
returns with status 0, whatever `quiet` is. -/
theorem C9_head_reporting (g : Globals) (Split : Config → Option GoString × Result)
    (hne : g.prefixes ≠ []) (hok : (Split (configOf g)).1 = none) :
    (∀ head, (Split (configOf g)).2.Head = some head →
        stdoutOf (mainBody g Split) = Println head.String) ∧
      ((Split (configOf g)).2.Head = none → stdoutOf (mainBody g Split) = []) ∧
      (stdoutOf (mainBody g Split) ≠ [] ↔ (Split (configOf g)).2.Head ≠ none) ∧
      exitStatus (mainBody g Split) = 0 ∧
      (∀ code, Event.exit code ∉ mainBody g Split) := by
  have hout : stdoutOf (mainBody g Split) =
      match (Split (configOf g)).2.Head with
      | some head => Println head.String
      | none => [] := by
    rw [mainBody_of_Split_ok g Split hne hok]
    cases g.legacy <;> cases g.progress <;> cases g.debug <;> cases g.quiet <;>
      cases (Split (configOf g)).2.Head <;> simp [stdoutOf]
  refine ⟨?_, ?_, ?_, ((mainBody_returns_of_Split_ok g Split hne hok).2), (mainBody_returns_of_Split_ok g Split hne hok).1⟩
  · intro head hh
    rw [hout, hh]
  · intro hh
    rw [hout, hh]
  · rw [hout]
    cases (Split (configOf g)).2.Head with
    | none => simp
    | some head => simp [Println]

/-- C9 at the run of `--prefix lib --progress`, with and without a head. -/
theorem C9_head_reporting_witness :
    stdoutOf (mainBody sampleGlobals sampleSplitOk) = Println (bytes "4f2a") ∧
      stdoutOf (mainBody sampleGlobals sampleSplitNoHead) = [] ∧
      exitStatus (mainBody sampleGlobals sampleSplitNoHead) = 0 :=
  ⟨(C9_head_reporting sampleGlobals sampleSplitOk (by decide) rfl).1 _ rfl,
   (C9_head_reporting sampleGlobals sampleSplitNoHead (by decide) rfl).2.1 rfl,
   (C9_head_reporting sampleGlobals sampleSplitNoHead (by decide) rfl).2.2.2.1⟩

/-- C10: targets are compared as raw byte strings. `Set("a:xxx")` then
`Set("b:xxx/")` both succeed and leave two prefixes whose targets differ
only by the trailing slash; and `Set` returns an error only when an entry of
the list has a `To` equal, byte for byte, to the parsed target. -/
theorem C10_targets_not_normalized :
    prefixesFlag.Set [] (bytes "a:xxx") =
        ([{ From := bytes "a", To := bytes "xxx" }], none) ∧
      prefixesFlag.Set [{ From := bytes "a", To := bytes "xxx" }] (bytes "b:xxx/") =
        ([{ From := bytes "a", To := bytes "xxx" },
          { From := bytes "b", To := bytes "xxx/" }], none) ∧
      bytes "xxx/" = bytes "xxx" ++ bytes "/" ∧
      ∀ (p : prefixesFlag) (value : GoString), (prefixesFlag.Set p value).2 ≠ none →
        ∃ q ∈ p, q.To = (prefixesFlag.parseValue value).2 := by
  refine ⟨by decide, by decide, by decide, ?_⟩
  intro p value herr
  rcases Set_cases p value with ⟨-, hset⟩ | ⟨hclash, -, -⟩
  · exact absurd (by rw [hset]) herr
  · exact hclash

end Lite
